import Mathlib

/-!
# The telnet shell of tig/arduino-projects

A shallow embedding of `lib/Shell/src/Shell.h` and of the example driver
`lib/Shell/examples/main.cpp` (the copy under `libraries/Shell/src/main.cpp`
differs only in the names of the server and client objects), followed by the
properties established about them.
-/

namespace ArduinoShell

/-! ## The example driver: `loop()` of main.cpp, lines 72-95 -/

/-- The calls `loop()` makes on its collaborators, in program order. -/
inductive Call where
  /-- The call `Ethernet.maintain()`. -/
  | ethernetMaintain
  /-- The call `shellServer.available()`. -/
  | serverAvailable
  /-- The call `shell.begin(shellClient, maxHistory)`. -/
  | shellBegin (maxHistory : Nat)
  /-- The call `shellClient.connected()`. -/
  | clientConnected
  /-- The call `shell.end()`. -/
  | shellEnd
  /-- The call `shellClient.stop()`. -/
  | clientStop
  /-- The assignment `shellClient = EthernetClient()`. -/
  | clientFresh
  /-- The call `shell.loop()`. -/
  | shellLoop
  deriving DecidableEq

/-- An `EthernetClient` value: `none` is the default-constructed client, which
converts to `false`; `some sock` is a client bound to socket `sock`. -/
abbrev EthernetClient := Option Nat

/-- What the outside world answers during one iteration of `loop()`:
`available` is the value returned by `shellServer.available()` and `connected`
the value returned by `shellClient.connected()`, should the iteration ask. -/
structure Env where
  available : EthernetClient
  connected : Bool
  deriving DecidableEq

/-- The globals of main.cpp that `loop()` touches, with the calls made so far. -/
structure Driver where
  shellClient : EthernetClient
  haveClient : Bool
  calls : List Call
  deriving DecidableEq

/-- The globals as initialised at lines 20-21: `EthernetClient shellClient;`
and `bool haveClient = false;`. -/
def Driver.init : Driver :=
  { shellClient := none, haveClient := false, calls := [] }

/-- Record one call. -/
def Driver.call (d : Driver) (c : Call) : Driver :=
  { d with calls := d.calls ++ [c] }

/-- One iteration of `loop()` (main.cpp lines 72-95). -/
def loop (env : Env) (d : Driver) : Driver :=
  let d := d.call Call.ethernetMaintain
  let d :=
    if !d.haveClient then
      let d := { d.call Call.serverAvailable with shellClient := env.available }
      if d.shellClient.isSome then
        Driver.call { d with haveClient := true } (Call.shellBegin 5)
      else
        d
    else if !env.connected then
      let d := d.call Call.clientConnected
      let d := d.call Call.shellEnd
      let d := d.call Call.clientStop
      let d := { d.call Call.clientFresh with shellClient := none }
      { d with haveClient := false }
    else
      d.call Call.clientConnected
  d.call Call.shellLoop

/-- Run `loop()` once per element of `envs`, oldest first. -/
def runLoop (envs : List Env) (d : Driver) : Driver :=
  envs.foldl (fun d env => loop env d) d

/-- Is the call a `shell.begin`? -/
def Call.isBegin : Call → Bool
  | Call.shellBegin _ => true
  | _ => false

/-- Is the call a `shell.end`? -/
def Call.isEnd : Call → Bool
  | Call.shellEnd => true
  | _ => false

/-- Whether, after the calls `t` made on a shell that was `b`egun or not
before them, `shell.begin` has been called more recently than `shell.end`. -/
def begunAfter (b : Bool) (t : List Call) : Bool :=
  t.foldl (fun b c => if c.isBegin then true else if c.isEnd then false else b) b

/-- Every `shell.begin` in `t` is made on a shell that is not begun and every
`shell.end` on one that is, starting from a shell that was `b`egun or not. -/
def disciplined (b : Bool) : List Call → Bool
  | [] => true
  | c :: t =>
    if c.isBegin then !b && disciplined true t
    else if c.isEnd then b && disciplined false t
    else disciplined b t

/-- The `shell.begin` and `shell.end` calls of a trace, as a list of flags:
`true` for a begin, `false` for an end. -/
def beginEnds (t : List Call) : List Bool :=
  (t.filter (fun c => c.isBegin || c.isEnd)).map Call.isBegin

/-- The strictly alternating sequence begin, end, begin, ... of length `n`
(when `first` is `true`; starting with an end otherwise). -/
def alternating (first : Bool) : Nat → List Bool
  | 0 => []
  | n + 1 => first :: alternating (!first) n

/-- What holds between iterations of `loop()`: the flag mirrors the trace, the
trace is disciplined, and its begin/end calls alternate, `n` of them so far. -/
def DriverInv (d : Driver) (n : Nat) : Prop :=
  d.haveClient = begunAfter false d.calls ∧
  disciplined false d.calls = true ∧
  beginEnds d.calls = alternating true n ∧
  (d.haveClient = true ↔ n % 2 = 1)

/-! ## The shell: `class Shell` of Shell.h, lines 73-129 -/

/-- The value of `SHELL_MAX_CMD_LEN` (Shell.h lines 33-37): 256 when `__arm__`
is defined, 64 otherwise. -/
def SHELL_MAX_CMD_LEN (arm : Bool) : Nat :=
  if arm then 256 else 64

/-- The string terminator of C. -/
def NUL : Char := Char.ofNat 0

/-- The two values of `Terminal::Mode` that Shell.h names, as the defaults of
the two `begin` overloads (lines 78-79). -/
inductive Mode where
  | Serial
  | Telnet
  deriving DecidableEq

/-- The state of a `Shell` object. The fields from `buffer` to `timer` are the
private fields of Shell.h lines 103-115, in order, `history` being the flat
character buffer of `historySize` bytes. `stream` and `mode` are the state of the `Terminal` base
class (the transport the terminal is bound to, if any, and its mode), and
`cursor` is the logical cursor of the line editor; Terminal.h is not among the
sources and these three follow the specification's data model. -/
structure Shell where
  stream : Option Nat
  mode : Mode
  cursor : Nat
  buffer : List Char
  curStart : Nat
  curLen : Nat
  curMax : Nat
  history : List Char
  historyWrite : Nat
  historyRead : Nat
  historySize : Nat
  prom : String
  isClient : Bool
  lineMode : Nat
  uid : Int
  timer : Nat
  deriving DecidableEq

/-- The accessor `prompt()` (Shell.h line 86). -/
def Shell.prompt (s : Shell) : String := s.prom

/-- The setter `setPrompt(prompt)` (Shell.h line 87): `prom = prompt;`. -/
def Shell.setPrompt (s : Shell) (prompt : String) : Shell :=
  { s with prom := prompt }

/-- The accessor `userid()` (Shell.h line 89). -/
def Shell.userid (s : Shell) : Int := s.uid

/-- The setter `setUserid(userid)` (Shell.h line 90): `uid = userid;`. -/
def Shell.setUserid (s : Shell) (userid : Int) : Shell :=
  { s with uid := userid }

/-- Modelled from the spec: the constructor `Shell()` is declared at Shell.h
line 75 and defined in Shell.cpp, which is not among the sources. A fresh
session is Idle: no transport bound, an empty line buffer of
`SHELL_MAX_CMD_LEN` characters, history disabled. -/
def Shell.new (arm : Bool) : Shell :=
  { stream := none, mode := Mode.Serial, cursor := 0,
    buffer := List.replicate (SHELL_MAX_CMD_LEN arm) NUL,
    curStart := 0, curLen := 0, curMax := SHELL_MAX_CMD_LEN arm,
    history := [], historyWrite := 0, historyRead := 0, historySize := 0,
    prom := "", isClient := false, lineMode := 0, uid := 0, timer := 0 }

/-- Modelled from the spec: `beginShell` is declared at Shell.h line 121, and
its definition is in Shell.cpp, which is not among the sources. Section 4.6:
begin "binds the transport, resets buffers, resets history, ... and
transitions to Active; fails (returns a failure indicator) if a transport is
already bound"; section 7: on a double begin "the Session remains in whatever
state it was in". The history store is "a flat circular character buffer of
fixed capacity" (section 3): `maxHistory` bytes, all terminators at first,
with both cursors at offset 0; a capacity of zero disables history. The
output of the `beginSession()` hook is not part of the state. -/
def Shell.beginShell (s : Shell) (stream : Nat) (maxHistory : Nat) (mode : Mode) :
    Bool × Shell :=
  if s.stream.isSome then
    (false, s)
  else
    (true, { s with stream := some stream, mode := mode, cursor := 0,
                    curStart := 0, curLen := 0, curMax := s.buffer.length,
                    history := List.replicate maxHistory NUL,
                    historyWrite := 0, historyRead := 0, historySize := maxHistory })

/-- Modelled from the spec: the overload `begin(Stream &, maxHistory, mode)`
of Shell.h line 78, defined in Shell.cpp, which is not among the sources. -/
def Shell.beginStream (s : Shell) (stream : Nat) (maxHistory : Nat) (mode : Mode) :
    Bool × Shell :=
  let r := s.beginShell stream maxHistory mode
  if r.1 then (true, { r.2 with isClient := false }) else r

/-- Modelled from the spec: the overload `begin(Client &, maxHistory, mode)`
of Shell.h line 79, defined in Shell.cpp, which is not among the sources. -/
def Shell.beginClient (s : Shell) (client : Nat) (maxHistory : Nat) (mode : Mode) :
    Bool × Shell :=
  let r := s.beginShell client maxHistory mode
  if r.1 then (true, { r.2 with isClient := true }) else r

/-! ## The argument view: `class ShellArguments` of Shell.h, lines 131-152 -/

/-- Modelled from the spec: the tokenizer is in Shell.cpp, which is not among
the sources, and section 4.4 speaks of "whitespace-delimited tokens". The
whitespace characters are the space and the control characters tab, line
feed, vertical tab, form feed and carriage return. -/
def isWhitespace (c : Char) : Bool :=
  c == Char.ofNat 32 || c == Char.ofNat 9 || c == Char.ofNat 10 ||
  c == Char.ofNat 11 || c == Char.ofNat 12 || c == Char.ofNat 13

/-- The state of a `ShellArguments` object: the private fields of Shell.h
lines 143-147. `line` is the buffer the view looks at (the view does not own
it; here it is carried by value), `currentIndex` and `currentPosn` are the
`mutable` pair that remembers the argument visited last. -/
structure ShellArguments where
  line : List Char
  size : Nat
  argc : Int
  currentIndex : Int
  currentPosn : Nat
  deriving DecidableEq

/-- The accessor `count()` (Shell.h line 139): `return argc;`. -/
def ShellArguments.count (a : ShellArguments) : Int := a.argc

/-- Modelled from the spec: the pass of the constructor `ShellArguments(buffer,
len)` (Shell.cpp, not among the sources) over the first `len` characters of
the buffer. Each whitespace character is overwritten, in place, by a
terminator, and each character that is not whitespace and does not continue a
token (`inToken`) starts one more token. Returns the buffer as rewritten and
the number of tokens that start in it. -/
def terminateTokens : List Char → Nat → Bool → List Char × Nat
  | [], _, _ => ([], 0)
  | c :: rest, 0, _ => (c :: rest, 0)
  | c :: rest, len + 1, inToken =>
    if isWhitespace c then
      let r := terminateTokens rest len false
      (NUL :: r.1, r.2)
    else
      let r := terminateTokens rest len true
      (c :: r.1, if inToken then r.2 else r.2 + 1)

/-- Modelled from the spec: a scan of `operator[]` (Shell.cpp, not among the
sources). The offset of the first character at or after `posn`, among the
first `size` of `line`, that is not a terminator (`size` when there is none). -/
def skipTerminators (line : List Char) (size posn : Nat) : Nat :=
  posn + (((line.take size).drop posn).takeWhile (fun c => c == NUL)).length

/-- Modelled from the spec: a scan of `operator[]` (Shell.cpp, not among the
sources). The offset of the first terminator at or after `posn`, among the
first `size` characters of `line` (`size` when there is none). -/
def skipToken (line : List Char) (size posn : Nat) : Nat :=
  posn + (((line.take size).drop posn).takeWhile (fun c => !(c == NUL))).length

/-- Modelled from the spec: one forward step of `operator[]` (Shell.cpp, not
among the sources), from the start of one token to the start of the next. -/
def nextToken (line : List Char) (size posn : Nat) : Nat :=
  skipTerminators line size (skipToken line size posn)

/-- Modelled from the spec: what the pointer returned by `operator[]`
(Shell.cpp, not among the sources) points to. The C string that starts at
offset `posn`: the characters up to the next terminator, or to the end of the
first `size` characters of `line`. -/
def stringAt (line : List Char) (size posn : Nat) : List Char :=
  ((line.take size).drop posn).takeWhile (fun c => !(c == NUL))

/-- Modelled from the spec: the constructor `ShellArguments(buffer, len)` is
declared at Shell.h line 135 and defined in Shell.cpp, which is not among the
sources. Section 3: the view "holds the buffer pointer, its length, and a ...
token count. Tokenizing is destructive: whitespace separators in the buffer
are overwritten with terminators in place"; the last-visited pair starts at
the first token. -/
def ShellArguments.new (buffer : List Char) (len : Nat) : ShellArguments :=
  let r := terminateTokens buffer len false
  { line := r.1, size := len, argc := r.2,
    currentIndex := 0, currentPosn := skipTerminators r.1 len 0 }

/-- Modelled from the spec: `operator[](int index)` is declared at Shell.h
line 140 and defined in Shell.cpp, which is not among the sources. Section
4.4: "`at(index) -> token | out-of-range`"; section 3: "forward access from
the cached position ...; backward/random access re-scans from the start". The
result `none` is the null pointer of an index out of range; the second
component is the view with its last-visited pair updated. -/
def ShellArguments.subscript (a : ShellArguments) (index : Int) :
    Option (List Char) × ShellArguments :=
  if index < 0 ∨ index ≥ a.argc then
    (none, a)
  else
    let posn :=
      if index ≥ a.currentIndex then
        (nextToken a.line a.size)^[(index - a.currentIndex).toNat] a.currentPosn
      else
        (nextToken a.line a.size)^[index.toNat] (skipTerminators a.line a.size 0)
    (some (stringAt a.line a.size posn), { a with currentIndex := index, currentPosn := posn })

/-- The view after the accesses `indices`, made first to last. -/
def ShellArguments.visit (a : ShellArguments) (indices : List Int) : ShellArguments :=
  indices.foldl (fun a i => (a.subscript i).2) a

/-- The maximal runs of elements that are not separators, first to last: the
pieces between separators that are not empty. -/
def runsOf (sep : Char → Bool) (l : List Char) : List (List Char) :=
  (l.splitOnP sep).filter (fun t => !t.isEmpty)

/-- The maximal runs of characters that are not whitespace, first to last. -/
def maximalRuns (line : List Char) : List (List Char) :=
  runsOf isWhitespace line

/-- What the constructor leaves in place of a character of the line. -/
def terminated (c : Char) : Char :=
  if isWhitespace c then NUL else c

/-- From the start of one token to the start of the next, on what remains of
the terminated line: past the token, then past the terminators. -/
def nextSuffix (rest : List Char) : List Char :=
  (rest.dropWhile (fun c => !(c == NUL))).dropWhile (fun c => c == NUL)

/-- The view `a` looks at the terminated line `text`: its count is the number
of tokens and its last-visited pair points at the start of a token. -/
def ShellArguments.Valid (a : ShellArguments) (text : List Char) : Prop :=
  a.line.take a.size = text ∧
  a.argc = ((runsOf (fun c => c == NUL) text).length : Int) ∧
  0 ≤ a.currentIndex ∧
  text.drop a.currentPosn = nextSuffix^[a.currentIndex.toNat] (text.dropWhile (fun c => c == NUL))

/-- A completed line is text: it holds no terminator. -/
def CompletedLine (line : List Char) : Prop :=
  NUL ∉ line

instance (line : List Char) : Decidable (CompletedLine line) :=
  inferInstanceAs (Decidable (NUL ∉ line))

/-- Whether a list of characters is all whitespace. -/
def AllWhitespace (w : List Char) : Prop :=
  ∀ c ∈ w, isWhitespace c = true

instance (w : List Char) : Decidable (AllWhitespace w) :=
  inferInstanceAs (Decidable (∀ c ∈ w, isWhitespace c = true))

/-- The arguments of a view, each read through `operator[]`, index 0 first. -/
def ShellArguments.tokens (a : ShellArguments) : List (Option (List Char)) :=
  (List.range a.count.toNat).map (fun (i : Nat) => (a.subscript (Int.ofNat i)).1)

/-! ## The history store -/

/-- Modelled from the spec: the history store is handled in Shell.cpp, which
is not among the sources. Section 3: the store is "a flat circular character
buffer ... with independent write and read cursors (modulo capacity)". The
bytes of the ring `h` met going once round from offset `start`. -/
def ringView (h : List Char) (start : Nat) : List Char :=
  (List.range h.length).map (fun k => h.getD ((start + k) % h.length) NUL)

/-- Modelled from the spec: the history store is handled in Shell.cpp, which
is not among the sources. Store `bytes` into the ring `h`, one after the
other from offset `start`, each at its offset modulo the capacity. -/
def ringWrite : List Char → Nat → List Char → List Char
  | h, _, [] => h
  | h, start, c :: bytes => ringWrite (h.set (start % h.length) c) (start + 1) bytes

/-- Modelled from the spec: the history store is handled in Shell.cpp, which
is not among the sources. The free bytes of the store: the terminators met
from the write cursor up to the first character of the oldest stored line. -/
def Shell.freeBytes (s : Shell) : Nat :=
  ((ringView s.history s.historyWrite).takeWhile (fun c => c == NUL)).length

/-- Modelled from the spec: the history store is handled in Shell.cpp, which
is not among the sources. Section 3: "the oldest stored line(s) are evicted
first (FIFO eviction, not LRU)". Evict the oldest stored line: it starts
after the free bytes, and its characters are overwritten by terminators. -/
def Shell.evictOldest (s : Shell) : Shell :=
  let free := s.freeBytes
  let oldest := ((ringView s.history s.historyWrite).drop free).takeWhile (fun c => !(c == NUL))
  { s with history :=
      ringWrite s.history (s.historyWrite + free) (List.replicate oldest.length NUL) }

/-- Modelled from the spec: the history store is handled in Shell.cpp, which
is not among the sources. Section 3: "when a new line would overflow
capacity, the oldest stored line(s) are evicted first". Evict oldest lines,
at most `fuel` of them, until `need` bytes are free. -/
def Shell.makeRoom (need : Nat) : Nat → Shell → Shell
  | 0, s => s
  | fuel + 1, s => if need ≤ s.freeBytes then s else Shell.makeRoom need fuel s.evictOldest

/-- Modelled from the spec: the history push happens in Shell.cpp, which is
not among the sources. Section 4.3: "`push(line)` appends a line to the
circular store, evicting the oldest line(s) if capacity is exceeded; resets
the read cursor to newest"; section 3: the lines are "concatenated,
null/length-delimited" and "total stored bytes never exceed capacity". The
line is stored at the write cursor, followed by its terminator, once oldest
lines have been evicted until it fits with one byte to spare: the byte under
the write cursor stays a terminator, which is what tells the newest line from
the oldest. An empty line, or one that the empty store cannot hold, is not
stored. -/
def Shell.pushHistory (s : Shell) (line : List Char) : Shell :=
  if line.isEmpty || s.historySize < line.length + 2 then s
  else
    let s := Shell.makeRoom (line.length + 2) s.historySize s
    let w := (s.historyWrite + line.length + 1) % s.historySize
    { s with history := ringWrite s.history s.historyWrite (line ++ [NUL]),
             historyWrite := w, historyRead := w }

/-- Modelled from the spec: `changeHistory(true)` is declared at Shell.h line
125, and its definition is in Shell.cpp, which is not among the sources.
Section 4.3: "`recallUp() -> line | none` steps the read cursor toward older
entries, returning none if already at the oldest retained entry." Going back
from the read cursor, past the terminator just before it, the characters up
to the next terminator are the line before; when there are none the read
cursor is at the oldest line. -/
def Shell.recallUp (s : Shell) : Option (List Char) × Shell :=
  if s.historySize = 0 then (none, s)
  else
    let back := (ringView s.history s.historyRead).reverse
    let older := (back.drop 1).takeWhile (fun c => !(c == NUL))
    if older.isEmpty then (none, s)
    else
      (some older.reverse,
       { s with historyRead :=
           (s.historyRead + s.historySize - (older.length + 1)) % s.historySize })

/-- Modelled from the spec: the decoded input events that the line editor
(Shell.cpp, not among the sources) consumes, as section 4.2 lists them. -/
inductive Event where
  | char (c : Char)
  | backspace
  | delete
  | cursorLeft
  | cursorRight
  | submit
  | cancel
  deriving DecidableEq

/-- The store `buffer[i] = c`, checked: `none` when `i` is not an index of
the array. -/
def writeAt (buffer : List Char) (i : Nat) (c : Char) : Option (List Char) :=
  if i < buffer.length then some (buffer.set i c) else none

/-- Modelled from the spec: the shift that makes room for an inserted
character (Shell.cpp, not among the sources). Move the `n` characters that
start at offset `posn` one place to the right, the last one first:
`buffer[posn + k + 1] = buffer[posn + k]` for `k = n - 1` down to 0. -/
def shiftRight (buffer : List Char) (posn : Nat) : Nat → Option (List Char)
  | 0 => some buffer
  | n + 1 =>
    match buffer[posn + n]? with
    | none => none
    | some c =>
      match writeAt buffer (posn + n + 1) c with
      | none => none
      | some b => shiftRight b posn n

/-- Modelled from the spec: the shift that closes the gap of a removed
character (Shell.cpp, not among the sources). Move the `n` characters that
start at offset `posn + 1` one place to the left, the first one first:
`buffer[posn + k] = buffer[posn + k + 1]` for `k` from 0 up to `n - 1`. -/
def shiftLeft (buffer : List Char) (posn : Nat) : Nat → Option (List Char)
  | 0 => some buffer
  | n + 1 =>
    match buffer[posn + 1]? with
    | none => none
    | some c =>
      match writeAt buffer posn c with
      | none => none
      | some b => shiftLeft b (posn + 1) n

/-- Modelled from the spec: the line editor is the body of `Shell::loop()`,
declared at Shell.h line 82 and defined in Shell.cpp, which is not among the
sources. Section 4.2, event by event: a character is inserted at the cursor
"if `length < capacity`", and rejected when the buffer is full; backspace and
delete remove "the character at/before the cursor" and shift "trailing bytes
left"; a cursor move "adjusts the logical cursor field only"; line-submit
hands the line to the tokenizer, after which the buffer is cleared; cancel
"clears the buffer without dispatch". Every store into `buffer` is checked:
the result is `none` when an event reads or writes outside the array. -/
def Shell.step (s : Shell) : Event → Option Shell
  | Event.char c =>
    if s.curLen < s.curMax then
      match shiftRight s.buffer s.cursor (s.curLen - s.cursor) with
      | none => none
      | some b =>
        match writeAt b s.cursor c with
        | none => none
        | some b => some { s with buffer := b, curLen := s.curLen + 1, cursor := s.cursor + 1 }
    else
      some s
  | Event.backspace =>
    if s.curStart < s.cursor then
      match shiftLeft s.buffer (s.cursor - 1) (s.curLen - s.cursor) with
      | none => none
      | some b => some { s with buffer := b, curLen := s.curLen - 1, cursor := s.cursor - 1 }
    else
      some s
  | Event.delete =>
    if s.cursor < s.curLen then
      match shiftLeft s.buffer s.cursor (s.curLen - s.cursor - 1) with
      | none => none
      | some b => some { s with buffer := b, curLen := s.curLen - 1 }
    else
      some s
  | Event.cursorLeft =>
    if s.curStart < s.cursor then some { s with cursor := s.cursor - 1 } else some s
  | Event.cursorRight =>
    if s.cursor < s.curLen then some { s with cursor := s.cursor + 1 } else some s
  | Event.submit =>
    let argv := ShellArguments.new (s.buffer.drop s.curStart) (s.curLen - s.curStart)
    some { s with buffer := s.buffer.take s.curStart ++ argv.line,
                  curLen := s.curStart, cursor := s.curStart }
  | Event.cancel =>
    some { s with curLen := s.curStart, cursor := s.curStart }

/-- Feed the events of `events` to the line editor, first to last; `none` as
soon as one of them reads or writes outside the buffer. -/
def Shell.feed (s : Shell) : List Event → Option Shell
  | [] => some s
  | e :: events =>
    match s.step e with
    | none => none
    | some s => Shell.feed s events

/-- The operations on a session other than `end()`: an input event, the two
setters, a history push, a recall, and a further `begin` through either
overload. -/
inductive Op where
  | event (e : Event)
  | setPrompt (prompt : String)
  | setUserid (userid : Int)
  | pushHistory (line : List Char)
  | recallUp
  | beginStream (stream maxHistory : Nat) (mode : Mode)
  | beginClient (client maxHistory : Nat) (mode : Mode)
  deriving DecidableEq

/-- The shell after one operation (an event that cannot be carried out leaves
the shell as it is). -/
def Shell.perform (s : Shell) : Op → Shell
  | Op.event e => (s.step e).getD s
  | Op.setPrompt prompt => s.setPrompt prompt
  | Op.setUserid userid => s.setUserid userid
  | Op.pushHistory line => s.pushHistory line
  | Op.recallUp => s.recallUp.2
  | Op.beginStream stream maxHistory mode => (s.beginStream stream maxHistory mode).2
  | Op.beginClient client maxHistory mode => (s.beginClient client maxHistory mode).2

/-- The shell after the operations `ops`, first to last. -/
def Shell.performAll (s : Shell) (ops : List Op) : Shell :=
  ops.foldl Shell.perform s

/-- The layout of the line buffer on a machine where `__arm__` is defined
(`arm`) or not: the array has `SHELL_MAX_CMD_LEN` elements and the cursors are
ordered within it. -/
def Shell.LineInv (arm : Bool) (s : Shell) : Prop :=
  s.buffer.length = SHELL_MAX_CMD_LEN arm ∧
  s.curStart ≤ s.cursor ∧ s.cursor ≤ s.curLen ∧
  s.curLen ≤ s.curMax ∧ s.curMax ≤ SHELL_MAX_CMD_LEN arm

/-! ## The command registry -/

/-- The type `ShellCommandFunc` (Shell.h line 50), a pointer to a function: a
value is the address of the handler. -/
abbrev ShellCommandFunc := Nat

/-- An object of `class ShellCommandRegister` (Shell.h lines 61-69). `next` is
a pointer: 0 is the null pointer, `a + 1` the address of the object at index
`a` of the memory. -/
structure ShellCommandRegister where
  name : String
  help : String
  func : ShellCommandFunc
  next : Nat
  deriving DecidableEq

/-- The memory the registry lives in: the `ShellCommandRegister` objects
constructed so far, the object at address `a + 1` being `objs[a]`; the head of
the process-wide list, a static of Shell.cpp that starts out null; and the
calls of `Shell::registerCommand` made so far, each with the pointer handed
over and the object it pointed to at that moment. -/
structure Registry where
  objs : List ShellCommandRegister
  firstCmd : Nat
  calls : List (Nat × ShellCommandRegister)
  deriving DecidableEq

/-- The memory at program start: no descriptor yet, a null head, no call. -/
def Registry.empty : Registry :=
  { objs := [], firstCmd := 0, calls := [] }

/-- The object a pointer points to, if any. -/
def Registry.deref (m : Registry) (p : Nat) : Option ShellCommandRegister :=
  if p = 0 then none else m.objs[p - 1]?

/-- The constructor of `ShellCommandRegister` (Shell.h lines 156-162): the
member initialisers `name(name), help(help), func(func), next(0)`, then the
body `Shell::registerCommand(this);`, whose call is recorded. The function
called is a parameter, `this` is the address of the new object. Returns
`this` and the memory. -/
def ShellCommandRegister.new (registerCommand : Nat → Registry → Registry)
    (name help : String) (func : ShellCommandFunc) (m : Registry) : Nat × Registry :=
  let this := m.objs.length + 1
  let self : ShellCommandRegister := { name := name, help := help, func := func, next := 0 }
  let m := { m with objs := m.objs ++ [self] }
  let m := { m with calls := m.calls ++ [(this, self)] }
  (this, registerCommand this m)

/-- Modelled from the spec: the walk of `Shell::registerCommand` (Shell.cpp,
not among the sources) to the end of the list. The address of the last node
of the list that starts at `p`, following at most `fuel` links (0 when `p` is
null or dangling). -/
def lastNode (m : Registry) : Nat → Nat → Nat
  | 0, p => p
  | fuel + 1, p =>
    match m.deref p with
    | none => 0
    | some o => if o.next = 0 then p else lastNode m fuel o.next

/-- Modelled from the spec: `Shell::registerCommand` is declared at Shell.h
line 84 and defined in Shell.cpp, which is not among the sources. Section 4.1:
"`register(descriptor)` appends to the global list; never removes"; section 3:
the list is "singly-linked, intrusive". The descriptor becomes the head of an
empty list, and the successor of the last node otherwise. -/
def Shell.registerCommand (cmd : Nat) (m : Registry) : Registry :=
  if m.firstCmd = 0 then
    { m with firstCmd := cmd }
  else
    let last := lastNode m m.objs.length m.firstCmd
    if last = 0 then m
    else { m with objs := m.objs.modify (fun o => { o with next := cmd }) (last - 1) }

/-- Modelled from the spec: the walk of `Shell::help()` (Shell.cpp, not among
the sources) along the list. The nodes of the list that starts at `p`, in
list order, following at most `fuel` links. -/
def listFrom (m : Registry) : Nat → Nat → List (Nat × ShellCommandRegister)
  | 0, _ => []
  | fuel + 1, p =>
    match m.deref p with
    | none => []
    | some o => (p, o) :: listFrom m fuel o.next

/-- Modelled from the spec: `Shell::help()` is declared at Shell.h line 94, and
its definition is in Shell.cpp, which is not among the sources. Section 6:
"`help` lists all registered commands with their help text, in registration
order". The result is the lines listed, a name and a help text each. -/
def Shell.help (m : Registry) : List (String × String) :=
  (listFrom m m.objs.length m.firstCmd).map (fun n => (n.2.name, n.2.help))

/-- The expansion of `ShellCommand(name, help, function)` (Shell.h lines
164-167): a static `ShellCommandRegister` constructed from the three. -/
def ShellCommand (name help : String) (function : ShellCommandFunc) (m : Registry) : Registry :=
  (ShellCommandRegister.new Shell.registerCommand name help function m).2

/-- Register the commands of `cmds`, first to last. -/
def registerAll (cmds : List (String × String × ShellCommandFunc)) (m : Registry) : Registry :=
  cmds.foldl (fun m c => ShellCommand c.1 c.2.1 c.2.2 m) m

/-- The descriptor registered `i`-th (from 0) among `n`, as it stands in the
list once all `n` are registered: linked to the next one, the last to null. -/
def descriptorAt (n i : Nat) (c : String × String × ShellCommandFunc) : ShellCommandRegister :=
  { name := c.1, help := c.2.1, func := c.2.2, next := if i + 1 < n then i + 2 else 0 }

/-- The memory holds the descriptors of `cmds`, in order, linked into one list
from `firstCmd`, and every call recorded handed over an existing object. -/
def Registry.Lists (m : Registry) (cmds : List (String × String × ShellCommandFunc)) : Prop :=
  m.objs.length = cmds.length ∧
  (∀ i, m.objs[i]? = (cmds[i]?).map (descriptorAt cmds.length i)) ∧
  m.firstCmd = (if cmds.length = 0 then 0 else 1) ∧
  (∀ c ∈ m.calls, c.1 ≤ m.objs.length)

/-! ## Handler signatures -/

/-- The parameter types that occur in the handler signatures. -/
inductive CType where
  /-- The type `Shell &`. -/
  | shellRef
  /-- The type `ShellCommandRegister *`. -/
  | commandRegisterPtr
  /-- The type `int`. -/
  | int
  /-- The type `const ShellArguments &`. -/
  | argumentsConstRef
  /-- The type `void`. -/
  | void
  deriving DecidableEq

/-- The signature of a function: its parameter types in order, and its
return type. -/
structure Signature where
  params : List CType
  result : CType
  deriving DecidableEq

/-- The signature of the type `ShellCommandFunc` (Shell.h line 50):
`void (*)(Shell &shell, ShellCommandRegister *command, int argc,
const ShellArguments &argv)`. -/
def ShellCommandFunc.signature : Signature :=
  { params := [CType.shellRef, CType.commandRegisterPtr, CType.int, CType.argumentsConstRef],
    result := CType.void }

/-- The signature of the example handler (main.cpp line 31):
`void cmdLed(Shell &shell, int argc, const ShellArguments &argv)`. -/
def cmdLed.signature : Signature :=
  { params := [CType.shellRef, CType.int, CType.argumentsConstRef],
    result := CType.void }

/-! # Properties -/

/-! ## Driver: properties -/

theorem begunAfter_append (b : Bool) (s t : List Call) :
    begunAfter b (s ++ t) = begunAfter (begunAfter b s) t := by
  simp [begunAfter, List.foldl_append]

theorem disciplined_append (b : Bool) (s t : List Call) :
    disciplined b (s ++ t) = (disciplined b s && disciplined (begunAfter b s) t) := by
  induction s generalizing b with
  | nil => simp [disciplined, begunAfter]
  | cons c s ih =>
    simp only [List.cons_append, disciplined, begunAfter, List.foldl_cons]
    have ih1 := ih true
    have ih2 := ih false
    have ih3 := ih b
    simp only [begunAfter] at ih1 ih2 ih3
    split
    · simp [ih1, Bool.and_assoc]
    · split
      · simp [ih2, Bool.and_assoc]
      · simp [ih3]

theorem beginEnds_append (s t : List Call) :
    beginEnds (s ++ t) = beginEnds s ++ beginEnds t := by
  simp [beginEnds]

theorem alternating_append (first : Bool) (m n : Nat) :
    alternating first (m + n)
      = alternating first m ++ alternating (if m % 2 = 0 then first else !first) n := by
  induction m generalizing first with
  | zero => simp [alternating]
  | succ m ih =>
    have h : m + 1 + n = (m + n) + 1 := by omega
    rw [h]
    simp only [alternating, List.cons_append, ih]
    congr 2
    rcases Nat.mod_two_eq_zero_or_one m with h0 | h1
    · have : (m + 1) % 2 = 1 := by omega
      simp [h0, this]
    · have : (m + 1) % 2 = 0 := by omega
      simp [h1, this]

/-- The calls one iteration adds, by case. -/
theorem loop_calls (env : Env) (d : Driver) :
    (loop env d).calls = d.calls ++
      (if d.haveClient then
        (if env.connected then [Call.ethernetMaintain, Call.clientConnected, Call.shellLoop]
         else [Call.ethernetMaintain, Call.clientConnected, Call.shellEnd, Call.clientStop,
               Call.clientFresh, Call.shellLoop])
       else
        (if env.available.isSome then
          [Call.ethernetMaintain, Call.serverAvailable, Call.shellBegin 5, Call.shellLoop]
         else [Call.ethernetMaintain, Call.serverAvailable, Call.shellLoop])) := by
  cases hh : d.haveClient <;> cases hc : env.connected <;> cases ha : env.available <;>
    simp [loop, Driver.call, hh, hc, ha]

theorem loop_haveClient (env : Env) (d : Driver) :
    (loop env d).haveClient =
      (if d.haveClient then env.connected else env.available.isSome) := by
  cases hh : d.haveClient <;> cases hc : env.connected <;> cases ha : env.available <;>
    simp [loop, Driver.call, hh, hc, ha]

theorem alternating_length (first : Bool) (n : Nat) : (alternating first n).length = n := by
  induction n generalizing first with
  | zero => rfl
  | succ n ih => simp [alternating, ih]

theorem driverInv_init : DriverInv Driver.init 0 := by
  simp [DriverInv, Driver.init, begunAfter, disciplined, beginEnds, alternating]

theorem driverInv_loop (env : Env) (d : Driver) (n : Nat) (h : DriverInv d n) :
    ∃ m, DriverInv (loop env d) m := by
  obtain ⟨h1, h2, h3, h4⟩ := h
  have hc := loop_calls env d
  have hh := loop_haveClient env d
  cases hv : d.haveClient with
  | true =>
    have hn : n % 2 = 1 := h4.mp hv
    have hb : begunAfter false d.calls = true := by rw [← h1, hv]
    cases hcon : env.connected with
    | true =>
      refine ⟨n, ?_, ?_, ?_, ?_⟩
      · rw [hh, hc, begunAfter_append, hb]; simp [hv, hcon, begunAfter, Call.isBegin, Call.isEnd]
      · rw [hc, disciplined_append, h2, hb]
        simp [hv, hcon, disciplined, Call.isBegin, Call.isEnd]
      · rw [hc, beginEnds_append, h3]
        simp [hv, hcon, beginEnds, Call.isBegin, Call.isEnd]
      · rw [hh]; simp [hv, hcon, hn]
    | false =>
      refine ⟨n + 1, ?_, ?_, ?_, ?_⟩
      · rw [hh, hc, begunAfter_append, hb]; simp [hv, hcon, begunAfter, Call.isBegin, Call.isEnd]
      · rw [hc, disciplined_append, h2, hb]
        simp [hv, hcon, disciplined, Call.isBegin, Call.isEnd]
      · rw [hc, beginEnds_append, h3, alternating_append]
        simp [hv, hcon, beginEnds, Call.isBegin, Call.isEnd, alternating, hn]
      · rw [hh]; simp [hv, hcon]; omega
  | false =>
    have hn : n % 2 = 0 := by
      rcases Nat.mod_two_eq_zero_or_one n with h0 | h1'
      · exact h0
      · have := h4.mpr h1'
        rw [hv] at this
        exact absurd this (by decide)
    have hb : begunAfter false d.calls = false := by rw [← h1, hv]
    cases hav : env.available with
    | none =>
      refine ⟨n, ?_, ?_, ?_, ?_⟩
      · rw [hh, hc, begunAfter_append, hb]; simp [hv, hav, begunAfter, Call.isBegin, Call.isEnd]
      · rw [hc, disciplined_append, h2, hb]
        simp [hv, hav, disciplined, Call.isBegin, Call.isEnd]
      · rw [hc, beginEnds_append, h3]
        simp [hv, hav, beginEnds, Call.isBegin, Call.isEnd]
      · rw [hh]; simp [hv, hav, hn]
    | some sock =>
      refine ⟨n + 1, ?_, ?_, ?_, ?_⟩
      · rw [hh, hc, begunAfter_append, hb]; simp [hv, hav, begunAfter, Call.isBegin, Call.isEnd]
      · rw [hc, disciplined_append, h2, hb]
        simp [hv, hav, disciplined, Call.isBegin, Call.isEnd]
      · rw [hc, beginEnds_append, h3, alternating_append]
        simp [hv, hav, beginEnds, Call.isBegin, Call.isEnd, alternating, hn]
      · rw [hh]; simp [hv, hav]; omega

theorem driverInv_runLoop (envs : List Env) (d : Driver) (n : Nat) (h : DriverInv d n) :
    ∃ m, DriverInv (runLoop envs d) m := by
  induction envs generalizing d n with
  | nil => exact ⟨n, h⟩
  | cons env envs ih =>
    obtain ⟨m, hm⟩ := driverInv_loop env d n h
    exact ih (loop env d) m hm

/-- C9. An iteration of `loop()` that starts with `haveClient` true: when the
client reports that it is not connected, the iteration calls `shell.end()`
once, then `shellClient.stop()`, replaces the client by a fresh
`EthernetClient`, clears `haveClient`, and makes no call to `shell.begin`;
when the client is still connected, it calls neither `shell.end` nor
`shell.begin` and leaves the client and the flag alone. -/
theorem loop_haveClient_disconnect (env : Env) (d : Driver) (h : d.haveClient = true) :
    (env.connected = false →
      (loop env d).calls = d.calls ++
        [Call.ethernetMaintain, Call.clientConnected, Call.shellEnd, Call.clientStop,
         Call.clientFresh, Call.shellLoop] ∧
      (loop env d).shellClient = none ∧ (loop env d).haveClient = false) ∧
    (env.connected = true →
      (loop env d).calls = d.calls ++
        [Call.ethernetMaintain, Call.clientConnected, Call.shellLoop] ∧
      (loop env d).shellClient = d.shellClient ∧ (loop env d).haveClient = true) := by
  constructor
  · intro hc
    simp [loop, Driver.call, h, hc]
  · intro hc
    simp [loop, Driver.call, h, hc]

theorem loop_haveClient_disconnect_witness :
    (Driver.mk (some 1) true [Call.shellBegin 5]).haveClient = true ∧
    (loop ⟨none, false⟩ ⟨some 1, true, [Call.shellBegin 5]⟩).calls =
      [Call.shellBegin 5, Call.ethernetMaintain, Call.clientConnected, Call.shellEnd,
       Call.clientStop, Call.clientFresh, Call.shellLoop] :=
  ⟨rfl,
   ((loop_haveClient_disconnect ⟨none, false⟩ ⟨some 1, true, [Call.shellBegin 5]⟩ rfl).1
      rfl).1⟩

/-- C10. From the initial globals and for every sequence of `loop()`
iterations, whatever the server and the client answer: `haveClient` is true
exactly when `shell.begin` has been called more recently than `shell.end`; the
begin and end calls made so far strictly alternate, starting with a begin; no
begin is made on a shell already begun and no end on a shell not begun. -/
theorem runLoop_begin_end_alternate (envs : List Env) :
    ((runLoop envs Driver.init).haveClient = true ↔
      begunAfter false (runLoop envs Driver.init).calls = true) ∧
    beginEnds (runLoop envs Driver.init).calls =
      alternating true (beginEnds (runLoop envs Driver.init).calls).length ∧
    disciplined false (runLoop envs Driver.init).calls = true := by
  obtain ⟨m, h1, h2, h3, _⟩ := driverInv_runLoop envs Driver.init 0 driverInv_init
  refine ⟨by rw [h1], ?_, h2⟩
  rw [h3, alternating_length]

/-! ## The shell: properties -/

/-- C8. In any state of the shell, `setPrompt(p)` makes `prompt()` return `p`
and changes nothing else: `userid()`, the line buffer and its cursors, the
history store and its cursors, and the remaining fields are as before. -/
theorem setPrompt_changes_prompt_only (s : Shell) (p : String) :
    (s.setPrompt p).prompt = p ∧
    (s.setPrompt p).userid = s.userid ∧
    (s.setPrompt p).buffer = s.buffer ∧
    (s.setPrompt p).curStart = s.curStart ∧
    (s.setPrompt p).curLen = s.curLen ∧
    (s.setPrompt p).curMax = s.curMax ∧
    (s.setPrompt p).cursor = s.cursor ∧
    (s.setPrompt p).history = s.history ∧
    (s.setPrompt p).historyWrite = s.historyWrite ∧
    (s.setPrompt p).historyRead = s.historyRead ∧
    (s.setPrompt p).historySize = s.historySize ∧
    (s.setPrompt p).stream = s.stream ∧
    (s.setPrompt p).mode = s.mode ∧
    (s.setPrompt p).isClient = s.isClient ∧
    (s.setPrompt p).lineMode = s.lineMode ∧
    (s.setPrompt p).timer = s.timer := by
  simp [Shell.setPrompt, Shell.prompt, Shell.userid]

theorem step_stream (s s' : Shell) (e : Event) (h : s.step e = some s') :
    s'.stream = s.stream := by
  cases e <;> simp only [Shell.step] at h
  · split at h
    · split at h
      · simp at h
      · split at h
        · simp at h
        · injection h with h; rw [← h]
    · injection h with h; rw [← h]
  · split at h
    · split at h
      · simp at h
      · injection h with h; rw [← h]
    · injection h with h; rw [← h]
  · split at h
    · split at h
      · simp at h
      · injection h with h; rw [← h]
    · injection h with h; rw [← h]
  · split at h <;> (injection h with h; rw [← h])
  · split at h <;> (injection h with h; rw [← h])
  · injection h with h; rw [← h]
  · injection h with h; rw [← h]

theorem beginShell_bound (s : Shell) (transport maxHistory : Nat) (mode : Mode)
    (h : s.stream.isSome = true) : s.beginShell transport maxHistory mode = (false, s) := by
  simp [Shell.beginShell, h]

theorem beginShell_success (s : Shell) (transport maxHistory : Nat) (mode : Mode)
    (h : (s.beginShell transport maxHistory mode).1 = true) :
    (s.beginShell transport maxHistory mode).2.stream.isSome = true := by
  unfold Shell.beginShell at h ⊢
  split at h
  · simp at h
  · rename_i hs
    rw [if_neg hs]
    rfl

theorem makeRoom_stream (need fuel : Nat) (s : Shell) :
    (Shell.makeRoom need fuel s).stream = s.stream := by
  induction fuel generalizing s with
  | zero => rfl
  | succ fuel ih =>
    simp only [Shell.makeRoom]
    split
    · rfl
    · rw [ih]; rfl

/-- No operation other than `end()` unbinds the transport. -/
theorem perform_bound (s : Shell) (op : Op) (h : s.stream.isSome = true) :
    (s.perform op).stream.isSome = true := by
  cases op with
  | event e =>
    simp only [Shell.perform]
    cases hs : s.step e with
    | none => simpa using h
    | some s' => simpa [step_stream s s' e hs] using h
  | setPrompt prompt => exact h
  | setUserid userid => exact h
  | pushHistory line =>
    simp only [Shell.perform, Shell.pushHistory]
    split
    · exact h
    · simpa [makeRoom_stream] using h
  | recallUp =>
    simp only [Shell.perform, Shell.recallUp]
    split
    · exact h
    · split <;> exact h
  | beginStream stream maxHistory mode =>
    simp only [Shell.perform, Shell.beginStream, beginShell_bound s stream maxHistory mode h]
    simpa using h
  | beginClient client maxHistory mode =>
    simp only [Shell.perform, Shell.beginClient, beginShell_bound s client maxHistory mode h]
    simpa using h

theorem performAll_bound (ops : List Op) (s : Shell) (h : s.stream.isSome = true) :
    (s.performAll ops).stream.isSome = true := by
  induction ops generalizing s with
  | nil => exact h
  | cons op ops ih =>
    simp only [Shell.performAll, List.foldl_cons]
    exact ih _ (perform_bound s op h)

/-- C5. On a shell that has a transport bound, a further `begin`, through
either overload, returns false and leaves the whole state as it was: the
bound transport, the line buffer and its cursors, the history store and its
cursors, the prompt and the userid. A shell has a transport bound once a
`begin` has succeeded, and it stays so, with every further `begin` failing in
the same way, through any operations other than `end()`. -/
theorem begin_on_bound_shell_fails (s : Shell) (h : s.stream.isSome = true)
    (transport maxHistory : Nat) (mode : Mode) :
    s.beginStream transport maxHistory mode = (false, s) ∧
    s.beginClient transport maxHistory mode = (false, s) ∧
    (∀ ops : List Op,
      (s.performAll ops).beginStream transport maxHistory mode = (false, s.performAll ops) ∧
      (s.performAll ops).beginClient transport maxHistory mode = (false, s.performAll ops)) ∧
    (∀ (s0 : Shell) (t0 h0 : Nat) (m0 : Mode),
      ((s0.beginStream t0 h0 m0).1 = true →
        (s0.beginStream t0 h0 m0).2.stream.isSome = true) ∧
      ((s0.beginClient t0 h0 m0).1 = true →
        (s0.beginClient t0 h0 m0).2.stream.isSome = true)) := by
  have key : ∀ s : Shell, s.stream.isSome = true →
      s.beginStream transport maxHistory mode = (false, s) ∧
      s.beginClient transport maxHistory mode = (false, s) := by
    intro s h
    simp [Shell.beginStream, Shell.beginClient, Shell.beginShell, h]
  refine ⟨(key s h).1, (key s h).2, fun ops => key _ (performAll_bound ops s h), ?_⟩
  intro s0 t0 h0 m0
  constructor
  · intro hb
    have hb2 : (s0.beginShell t0 h0 m0).1 = true := by
      unfold Shell.beginStream at hb
      simp only at hb
      split at hb <;> assumption
    have := beginShell_success s0 t0 h0 m0 hb2
    simp only [Shell.beginStream, hb2, if_true]
    exact this
  · intro hb
    have hb2 : (s0.beginShell t0 h0 m0).1 = true := by
      unfold Shell.beginClient at hb
      simp only at hb
      split at hb <;> assumption
    have := beginShell_success s0 t0 h0 m0 hb2
    simp only [Shell.beginClient, hb2, if_true]
    exact this

theorem begin_on_bound_shell_fails_witness :
    ((Shell.new false).beginClient 1 5 Mode.Telnet).2.stream.isSome = true ∧
    (((Shell.new false).beginClient 1 5 Mode.Telnet).2.beginClient 2 3 Mode.Telnet) =
      (false, ((Shell.new false).beginClient 1 5 Mode.Telnet).2) :=
  ⟨by decide,
   (begin_on_bound_shell_fails ((Shell.new false).beginClient 1 5 Mode.Telnet).2
      (by decide) 2 3 Mode.Telnet).2.1⟩

/-! ## The line editor: properties -/

theorem writeAt_some (b : List Char) (i : Nat) (c : Char) (h : i < b.length) :
    ∃ b', writeAt b i c = some b' ∧ b'.length = b.length := by
  refine ⟨b.set i c, ?_, ?_⟩
  · simp [writeAt, h]
  · simp

theorem shiftRight_some (n : Nat) (b : List Char) (posn : Nat) (h : posn + n < b.length) :
    ∃ b', shiftRight b posn n = some b' ∧ b'.length = b.length := by
  induction n generalizing b with
  | zero => exact ⟨b, rfl, rfl⟩
  | succ n ih =>
    have hr : posn + n < b.length := by omega
    obtain ⟨b1, hw, hl⟩ := writeAt_some b (posn + n + 1) (b.get ⟨posn + n, hr⟩) (by omega)
    obtain ⟨b2, hs, hl2⟩ := ih b1 (by omega)
    refine ⟨b2, ?_, by omega⟩
    simp only [shiftRight, List.getElem?_eq_getElem hr, List.get_eq_getElem] at hw ⊢
    simp only [hw, hs]

theorem shiftLeft_some (n : Nat) (b : List Char) (posn : Nat) (h : posn + n < b.length) :
    ∃ b', shiftLeft b posn n = some b' ∧ b'.length = b.length := by
  induction n generalizing b posn with
  | zero => exact ⟨b, rfl, rfl⟩
  | succ n ih =>
    have hr : posn + 1 < b.length := by omega
    obtain ⟨b1, hw, hl⟩ := writeAt_some b posn (b.get ⟨posn + 1, hr⟩) (by omega)
    obtain ⟨b2, hs, hl2⟩ := ih b1 (posn + 1) (by omega)
    refine ⟨b2, ?_, by omega⟩
    simp only [shiftLeft, List.getElem?_eq_getElem hr, List.get_eq_getElem] at hw ⊢
    simp only [hw, hs]

theorem terminateTokens_length (b : List Char) (len : Nat) (t : Bool) :
    (terminateTokens b len t).1.length = b.length := by
  induction b generalizing len t with
  | nil => simp [terminateTokens]
  | cons c rest ih =>
    cases len with
    | zero => simp [terminateTokens]
    | succ len =>
      simp only [terminateTokens]
      split <;> simp [ih]

/-- One event of the line editor stays inside the buffer and keeps its layout. -/
theorem step_lineInv (arm : Bool) (s : Shell) (h : s.LineInv arm) (e : Event) :
    ∃ s', s.step e = some s' ∧ s'.LineInv arm := by
  obtain ⟨hb, h1, h2, h3, h4⟩ := h
  cases e with
  | char c =>
    by_cases hfull : s.curLen < s.curMax
    · obtain ⟨b1, hs, hl⟩ := shiftRight_some (s.curLen - s.cursor) s.buffer s.cursor (by omega)
      obtain ⟨b2, hw, hl2⟩ := writeAt_some b1 s.cursor c (by omega)
      refine ⟨{ s with buffer := b2, curLen := s.curLen + 1, cursor := s.cursor + 1 }, ?_, ?_⟩
      · simp only [Shell.step, hfull, if_true, hs, hw]
      · refine ⟨?_, ?_, ?_, ?_, ?_⟩ <;> simp only <;> omega
    · exact ⟨s, by simp [Shell.step, hfull], hb, h1, h2, h3, h4⟩
  | backspace =>
    by_cases hc : s.curStart < s.cursor
    · obtain ⟨b1, hs, hl⟩ :=
        shiftLeft_some (s.curLen - s.cursor) s.buffer (s.cursor - 1) (by omega)
      refine ⟨{ s with buffer := b1, curLen := s.curLen - 1, cursor := s.cursor - 1 }, ?_, ?_⟩
      · simp only [Shell.step, hc, if_true, hs]
      · refine ⟨?_, ?_, ?_, ?_, ?_⟩ <;> simp only <;> omega
    · exact ⟨s, by simp [Shell.step, hc], hb, h1, h2, h3, h4⟩
  | delete =>
    by_cases hc : s.cursor < s.curLen
    · obtain ⟨b1, hs, hl⟩ :=
        shiftLeft_some (s.curLen - s.cursor - 1) s.buffer s.cursor (by omega)
      refine ⟨{ s with buffer := b1, curLen := s.curLen - 1 }, ?_, ?_⟩
      · simp only [Shell.step, hc, if_true, hs]
      · refine ⟨?_, ?_, ?_, ?_, ?_⟩ <;> simp only <;> omega
    · exact ⟨s, by simp [Shell.step, hc], hb, h1, h2, h3, h4⟩
  | cursorLeft =>
    by_cases hc : s.curStart < s.cursor
    · refine ⟨{ s with cursor := s.cursor - 1 }, by simp only [Shell.step, hc, if_true], ?_⟩
      refine ⟨?_, ?_, ?_, ?_, ?_⟩ <;> simp only <;> omega
    · exact ⟨s, by simp [Shell.step, hc], hb, h1, h2, h3, h4⟩
  | cursorRight =>
    by_cases hc : s.cursor < s.curLen
    · refine ⟨{ s with cursor := s.cursor + 1 }, by simp only [Shell.step, hc, if_true], ?_⟩
      refine ⟨?_, ?_, ?_, ?_, ?_⟩ <;> simp only <;> omega
    · exact ⟨s, by simp [Shell.step, hc], hb, h1, h2, h3, h4⟩
  | submit =>
    refine ⟨_, rfl, ?_⟩
    refine ⟨?_, ?_, ?_, ?_, ?_⟩
    · simp only [ShellArguments.new, List.length_append, List.length_take,
        terminateTokens_length, List.length_drop]
      omega
    all_goals (simp only; omega)
  | cancel =>
    refine ⟨_, rfl, ?_⟩
    refine ⟨?_, ?_, ?_, ?_, ?_⟩ <;> simp only <;> omega

theorem feed_lineInv (arm : Bool) (events : List Event) (s : Shell) (h : s.LineInv arm) :
    ∃ s', s.feed events = some s' ∧ s'.LineInv arm := by
  induction events generalizing s with
  | nil => exact ⟨s, rfl, h⟩
  | cons e events ih =>
    obtain ⟨s1, hs1, hinv⟩ := step_lineInv arm s h e
    obtain ⟨s2, hs2, hrest⟩ := ih s1 hinv
    exact ⟨s2, by simp only [Shell.feed, hs1, hs2], hrest⟩

theorem beginShell_lineInv (arm : Bool) (s : Shell)
    (harr : s.buffer.length = SHELL_MAX_CMD_LEN arm) (transport maxHistory : Nat) (mode : Mode)
    (hb : (s.beginShell transport maxHistory mode).1 = true) :
    (s.beginShell transport maxHistory mode).2.LineInv arm := by
  unfold Shell.beginShell at hb ⊢
  split at hb
  · simp at hb
  · rename_i hs
    rw [if_neg hs]
    refine ⟨harr, ?_, ?_, ?_, ?_⟩ <;> simp [harr]

/-- C3. On a shell whose `buffer` array has its `SHELL_MAX_CMD_LEN` elements
(256 on ARM, 64 otherwise), once `begin` has succeeded and for every sequence
of input events however long (characters, edits, submits and cancels
alike), no event reads or writes outside the array, and afterwards
`curLen <= curMax <= SHELL_MAX_CMD_LEN` holds. -/
theorem lineBuffer_never_overrun (arm : Bool) (s : Shell)
    (harr : s.buffer.length = SHELL_MAX_CMD_LEN arm) (transport maxHistory : Nat) (mode : Mode)
    (hbegin : (s.beginClient transport maxHistory mode).1 = true) (events : List Event) :
    ∃ s', (s.beginClient transport maxHistory mode).2.feed events = some s' ∧
      s'.curLen ≤ s'.curMax ∧ s'.curMax ≤ SHELL_MAX_CMD_LEN arm ∧
      s'.buffer.length = SHELL_MAX_CMD_LEN arm ∧
      SHELL_MAX_CMD_LEN arm = (if arm = true then 256 else 64) := by
  have hinv : (s.beginClient transport maxHistory mode).2.LineInv arm := by
    have hb : (s.beginShell transport maxHistory mode).1 = true := by
      unfold Shell.beginClient at hbegin
      simp only at hbegin
      split at hbegin
      · assumption
      · assumption
    have := beginShell_lineInv arm s harr transport maxHistory mode hb
    unfold Shell.beginClient
    simp only [hb, if_true]
    exact this
  obtain ⟨s1, hs1, hinv1⟩ := feed_lineInv arm events _ hinv
  exact ⟨s1, hs1, hinv1.2.2.2.1, hinv1.2.2.2.2, hinv1.1, rfl⟩

theorem lineBuffer_never_overrun_witness :
    (Shell.new false).buffer.length = SHELL_MAX_CMD_LEN false ∧
    ((Shell.new false).beginClient 1 5 Mode.Telnet).1 = true ∧
    ∃ s', ((Shell.new false).beginClient 1 5 Mode.Telnet).2.feed
        (List.replicate 70 (Event.char (Char.ofNat 97))) = some s' ∧
      s'.curLen ≤ s'.curMax ∧ s'.curMax ≤ SHELL_MAX_CMD_LEN false ∧
      s'.buffer.length = SHELL_MAX_CMD_LEN false ∧
      SHELL_MAX_CMD_LEN false = (if false = true then 256 else 64) :=
  ⟨by decide, by decide,
   lineBuffer_never_overrun false (Shell.new false) (by decide) 1 5 Mode.Telnet (by decide)
     (List.replicate 70 (Event.char (Char.ofNat 97)))⟩

/-! ## The command registry: properties -/

theorem lastNode_chain (m : Registry) (k : Nat)
    (hk : ∀ i, i < k → ∃ o, m.objs[i]? = some o ∧ o.next = if i + 1 < k then i + 2 else 0)
    (fuel p : Nat) (h1 : 1 ≤ p) (h2 : p ≤ k) (h3 : k - p ≤ fuel) :
    lastNode m fuel p = k := by
  induction fuel generalizing p with
  | zero => simp only [lastNode]; omega
  | succ fuel ih =>
    obtain ⟨o, ho, hn⟩ := hk (p - 1) (by omega)
    have hd : m.deref p = some o := by
      simp only [Registry.deref, ho]
      rw [if_neg (by omega)]
    simp only [lastNode, hd]
    by_cases hp : p = k
    · have : o.next = 0 := by rw [hn, if_neg (by omega)]
      rw [if_pos this, hp]
    · have : o.next = p + 1 := by rw [hn, if_pos (by omega)]; omega
      rw [this, if_neg (by omega)]
      exact ih (p + 1) (by omega) (by omega) (by omega)

theorem listFrom_null (m : Registry) (fuel : Nat) : listFrom m fuel 0 = [] := by
  cases fuel <;> simp [listFrom, Registry.deref]

theorem listFrom_chain (m : Registry)
    (hk : ∀ i, i < m.objs.length →
      ∃ o, m.objs[i]? = some o ∧ o.next = if i + 1 < m.objs.length then i + 2 else 0)
    (fuel p : Nat) (h1 : 1 ≤ p) (h3 : m.objs.length + 1 - p ≤ fuel) :
    listFrom m fuel p = (m.objs.drop (p - 1)).enumFrom p := by
  induction fuel generalizing p with
  | zero =>
    have : m.objs.length ≤ p - 1 := by omega
    simp [listFrom, List.drop_eq_nil_of_le this]
  | succ fuel ih =>
    by_cases hp : p ≤ m.objs.length
    · have hlt : p - 1 < m.objs.length := by omega
      obtain ⟨o, ho, hn⟩ := hk (p - 1) hlt
      have hd : m.deref p = some o := by
        simp only [Registry.deref, ho]
        rw [if_neg (by omega)]
      have ho2 : m.objs[p - 1] = o := by
        rw [List.getElem?_eq_getElem hlt] at ho
        exact Option.some.inj ho
      rw [List.drop_eq_getElem_cons hlt, ho2]
      simp only [listFrom, hd, List.enumFrom_cons]
      congr 1
      by_cases hpk : p = m.objs.length
      · have : o.next = 0 := by rw [hn, if_neg (by omega)]
        rw [this, listFrom_null]
        have : m.objs.length ≤ p - 1 + 1 := by omega
        simp [List.drop_eq_nil_of_le this]
      · have : o.next = p + 1 := by rw [hn, if_pos (by omega)]; omega
        rw [this, ih (p + 1) (by omega) (by omega)]
        have : p + 1 - 1 = p - 1 + 1 := by omega
        rw [this]
    · have hnone : m.deref p = none := by
        simp only [Registry.deref]
        rw [if_neg (by omega)]
        exact List.getElem?_eq_none (by omega)
      have : m.objs.length ≤ p - 1 := by omega
      simp [listFrom, hnone, List.drop_eq_nil_of_le this]

theorem lists_chain (m : Registry) (cmds : List (String × String × ShellCommandFunc))
    (h : m.Lists cmds) (i : Nat) (hi : i < m.objs.length) :
    ∃ o, m.objs[i]? = some o ∧ o.next = if i + 1 < m.objs.length then i + 2 else 0 := by
  obtain ⟨hl, hobj, _, _⟩ := h
  have hc : i < cmds.length := by omega
  refine ⟨descriptorAt cmds.length i cmds[i], ?_, ?_⟩
  · rw [hobj i, List.getElem?_eq_getElem hc]; rfl
  · simp [descriptorAt, hl]

theorem lists_empty : Registry.empty.Lists [] := by
  refine ⟨rfl, ?_, rfl, ?_⟩
  · intro i; simp [Registry.empty]
  · intro c hc; simp [Registry.empty] at hc

theorem registerCommand_null (cmd : Nat) (m : Registry) (h : m.firstCmd = 0) :
    Shell.registerCommand cmd m = { m with firstCmd := cmd } := by
  simp [Shell.registerCommand, h]

theorem registerCommand_chain (cmd : Nat) (m : Registry) (k : Nat)
    (hk : ∀ i, i < k → ∃ o, m.objs[i]? = some o ∧ o.next = if i + 1 < k then i + 2 else 0)
    (hfirst : m.firstCmd = 1) (hk0 : 0 < k) (hkl : k ≤ m.objs.length) :
    Shell.registerCommand cmd m =
      { m with objs := m.objs.modify (fun o => { o with next := cmd }) (k - 1) } := by
  have hlast : lastNode m m.objs.length m.firstCmd = k := by
    rw [hfirst]
    exact lastNode_chain m k hk _ 1 (Nat.le_refl 1) (by omega) (by omega)
  unfold Shell.registerCommand
  rw [if_neg (by omega)]
  simp only [hlast]
  rw [if_neg (by omega)]

/-- The memory right after the member initialisers of the constructor, when
`Shell::registerCommand(this)` is about to run. -/
theorem new_eq (registerCommand : Nat → Registry → Registry) (name help : String)
    (func : ShellCommandFunc) (m : Registry) :
    ShellCommandRegister.new registerCommand name help func m =
      (m.objs.length + 1, registerCommand (m.objs.length + 1)
        { objs := m.objs ++ [{ name := name, help := help, func := func, next := 0 }],
          firstCmd := m.firstCmd,
          calls := m.calls ++
            [(m.objs.length + 1, { name := name, help := help, func := func, next := 0 })] }) :=
  rfl

/-- Constructing one more descriptor appends it to the list. -/
theorem lists_ShellCommand (m : Registry) (cmds : List (String × String × ShellCommandFunc))
    (c : String × String × ShellCommandFunc) (h : m.Lists cmds) :
    (ShellCommand c.1 c.2.1 c.2.2 m).Lists (cmds ++ [c]) := by
  have hchain := lists_chain m cmds h
  obtain ⟨hl, hobj, hfirst, hcalls⟩ := h
  by_cases hn : cmds.length = 0
  · have hnil : cmds = [] := List.length_eq_zero.mp hn
    have hobjs : m.objs = [] := List.length_eq_zero.mp (by omega)
    have hf : m.firstCmd = 0 := by rw [hfirst, if_pos hn]
    subst hnil
    rw [ShellCommand, new_eq, registerCommand_null _ _ (by exact hf)]
    refine ⟨?_, ?_, ?_, ?_⟩
    · simp [hobjs]
    · intro i
      cases i with
      | zero => simp [hobjs, descriptorAt]
      | succ i => simp [hobjs]
    · simp [hobjs]
    · intro x hx
      simp only [List.mem_append, List.mem_singleton] at hx
      rcases hx with hx | hx
      · have := hcalls x hx
        simp only [List.length_append, List.length_singleton]; omega
      · subst hx; simp
  · have hf : m.firstCmd = 1 := by rw [hfirst, if_neg hn]
    rw [ShellCommand, new_eq,
      registerCommand_chain _ _ m.objs.length ?_ (by exact hf) (by omega) (by simp)]
    · refine ⟨?_, ?_, ?_, ?_⟩
      · simp [hl]
      · intro i
        simp only [List.getElem?_modify, List.length_append, List.length_singleton]
        rcases Nat.lt_trichotomy i cmds.length with hi | hi | hi
        · rw [List.getElem?_append_left (by omega), List.getElem?_append_left hi, hobj i,
            List.getElem?_eq_getElem hi]
          by_cases hik : m.objs.length - 1 = i
          · have e1 : (if i + 1 < cmds.length + 1 then i + 2 else 0) = m.objs.length + 1 := by
              rw [if_pos (by omega)]; omega
            simp only [descriptorAt, Option.map_eq_map, Option.map_some', if_pos hik, e1]
          · have e1 : (if i + 1 < cmds.length + 1 then i + 2 else 0) =
                (if i + 1 < cmds.length then i + 2 else 0) := by
              rw [if_pos (by omega), if_pos (by omega)]
            simp only [descriptorAt, Option.map_eq_map, Option.map_some', if_neg hik, e1]
        · subst hi
          have hik : ¬ (cmds.length - 1 = cmds.length) := by omega
          rw [List.getElem?_append_right (by omega), List.getElem?_append_right (by omega)]
          simp only [hl, Nat.sub_self, List.getElem?_cons_zero, Option.map_eq_map,
            Option.map_some', if_neg hik, descriptorAt]
          simp
        · have h1 : (m.objs ++ [({ name := c.1, help := c.2.1, func := c.2.2, next := 0 } :
              ShellCommandRegister)])[i]? = none :=
            List.getElem?_eq_none (by simp; omega)
          have h2 : (cmds ++ [c])[i]? = none := List.getElem?_eq_none (by simp; omega)
          rw [h1, h2]; rfl
      · simp [hf]
      · intro x hx
        simp only [List.mem_append, List.mem_singleton] at hx
        simp only [List.length_modify, List.length_append, List.length_singleton]
        rcases hx with hx | hx
        · have := hcalls x hx
          omega
        · subst hx; simp
    · intro i hi
      obtain ⟨o, ho, hnx⟩ := hchain i hi
      exact ⟨o, by simp only [List.getElem?_append_left hi, ho], hnx⟩

theorem registerAll_append (cmds : List (String × String × ShellCommandFunc))
    (c : String × String × ShellCommandFunc) (m : Registry) :
    registerAll (cmds ++ [c]) m = ShellCommand c.1 c.2.1 c.2.2 (registerAll cmds m) := by
  simp [registerAll, List.foldl_append]

theorem lists_registerAll (cmds : List (String × String × ShellCommandFunc)) :
    (registerAll cmds Registry.empty).Lists cmds := by
  induction cmds using List.reverseRecOn with
  | nil => exact lists_empty
  | append_singleton cmds c ih =>
    rw [registerAll_append]
    exact lists_ShellCommand _ cmds c ih

/-- The lines `help` lists for a memory that holds the descriptors of `cmds`. -/
theorem help_of_lists (m : Registry) (cmds : List (String × String × ShellCommandFunc))
    (h : m.Lists cmds) : Shell.help m = cmds.map (fun c => (c.1, c.2.1)) := by
  have hchain := lists_chain m cmds h
  obtain ⟨hl, hobj, hfirst, _⟩ := h
  by_cases hn : cmds.length = 0
  · have hnil : cmds = [] := List.length_eq_zero.mp hn
    subst hnil
    have hf : m.firstCmd = 0 := by rw [hfirst, if_pos hn]
    simp [Shell.help, hf, listFrom_null]
  · have hf : m.firstCmd = 1 := by rw [hfirst, if_neg hn]
    rw [Shell.help, hf, listFrom_chain m hchain _ 1 (Nat.le_refl 1) (by omega)]
    apply List.ext_getElem?
    intro i
    simp only [Nat.sub_self, List.drop_zero, List.getElem?_map, List.getElem?_enumFrom, hobj i]
    cases cmds[i]? <;> simp [descriptorAt]

theorem registerCommand_calls (cmd : Nat) (m : Registry) :
    (Shell.registerCommand cmd m).calls = m.calls := by
  unfold Shell.registerCommand
  split
  · rfl
  · simp only []
    split <;> rfl

/-- The nodes `help` walks in a memory that holds the descriptors of `cmds`:
the addresses 1, 2, ... up to the number of descriptors. -/
theorem listFrom_of_lists (m : Registry) (cmds : List (String × String × ShellCommandFunc))
    (h : m.Lists cmds) (hn : cmds ≠ []) :
    (listFrom m m.objs.length m.firstCmd).map Prod.fst = List.range' 1 cmds.length := by
  have hchain := lists_chain m cmds h
  obtain ⟨hl, _, hfirst, _⟩ := h
  have hlen : cmds.length ≠ 0 := fun h0 => hn (List.length_eq_zero.mp h0)
  have hf : m.firstCmd = 1 := by rw [hfirst, if_neg hlen]
  rw [hf, listFrom_chain m hchain _ 1 (Nat.le_refl 1) (by omega)]
  simp [List.enumFrom_map_fst, hl]

/-- C4. For every sequence of command descriptors registered one after the
other from program start, `help` lists exactly their names and help texts, in
the order of registration; when the names are pairwise distinct, each name is
listed exactly once. -/
theorem help_lists_registration_order (cmds : List (String × String × ShellCommandFunc))
    (h : (cmds.map (fun c => c.1)).Nodup) :
    Shell.help (registerAll cmds Registry.empty) = cmds.map (fun c => (c.1, c.2.1)) ∧
    (Shell.help (registerAll cmds Registry.empty)).map Prod.fst = cmds.map (fun c => c.1) ∧
    ∀ c ∈ cmds,
      ((Shell.help (registerAll cmds Registry.empty)).map Prod.fst).count c.1 = 1 := by
  have hhelp := help_of_lists _ cmds (lists_registerAll cmds)
  have hnames : (Shell.help (registerAll cmds Registry.empty)).map Prod.fst
      = cmds.map (fun c => c.1) := by
    rw [hhelp, List.map_map]; rfl
  refine ⟨hhelp, hnames, ?_⟩
  intro c hc
  rw [hnames]
  exact List.count_eq_one_of_mem h (List.mem_map_of_mem _ hc)

theorem help_lists_registration_order_witness :
    ([("led", "Turns the status LED on or off", 1), ("blink", "Blinks", 2),
      ("about", "Shows the version", 3)].map
        (fun c : String × String × ShellCommandFunc => c.1)).Nodup ∧
    (Shell.help (registerAll [("led", "Turns the status LED on or off", 1), ("blink", "Blinks", 2),
      ("about", "Shows the version", 3)] Registry.empty)).map Prod.fst
      = ["led", "blink", "about"] :=
  ⟨by decide,
   (help_lists_registration_order [("led", "Turns the status LED on or off", 1),
      ("blink", "Blinks", 2), ("about", "Shows the version", 3)] (by decide)).2.1⟩

/-- C7. Constructing a `ShellCommandRegister(name, help, func)`: the
constructor makes one call of `Shell::registerCommand`, handing over the new
object with `name`, `help` and `func` as given and a null `next`; after it,
in a memory built by earlier registrations, the object still has the three
fields as given, it has been handed to `Shell::registerCommand` exactly once,
and it sits in the list exactly once. -/
theorem constructor_registers_once (name help : String) (func : ShellCommandFunc) :
    (∀ m : Registry,
      (ShellCommandRegister.new Shell.registerCommand name help func m).1
        = m.objs.length + 1 ∧
      (ShellCommandRegister.new Shell.registerCommand name help func m).2.calls
        = m.calls ++ [(m.objs.length + 1,
            { name := name, help := help, func := func, next := 0 })]) ∧
    (∀ cmds : List (String × String × ShellCommandFunc),
      (ShellCommandRegister.new Shell.registerCommand name help func
        (registerAll cmds Registry.empty)).1 = cmds.length + 1 ∧
      (∃ o, (ShellCommandRegister.new Shell.registerCommand name help func
              (registerAll cmds Registry.empty)).2.deref (cmds.length + 1) = some o ∧
            o.name = name ∧ o.help = help ∧ o.func = func) ∧
      ((ShellCommandRegister.new Shell.registerCommand name help func
          (registerAll cmds Registry.empty)).2.calls.map Prod.fst).count (cmds.length + 1)
        = 1 ∧
      ((listFrom
          (ShellCommandRegister.new Shell.registerCommand name help func
            (registerAll cmds Registry.empty)).2
          (ShellCommandRegister.new Shell.registerCommand name help func
            (registerAll cmds Registry.empty)).2.objs.length
          (ShellCommandRegister.new Shell.registerCommand name help func
            (registerAll cmds Registry.empty)).2.firstCmd).map Prod.fst).count
        (cmds.length + 1) = 1) := by
  constructor
  · intro m
    refine ⟨rfl, ?_⟩
    rw [new_eq]
    simp only [registerCommand_calls]
  · intro cmds
    have hold := lists_registerAll cmds
    have hnew := lists_ShellCommand _ cmds (name, help, func) hold
    simp only [ShellCommand] at hnew
    have hl := hold.1
    refine ⟨?_, ?_, ?_, ?_⟩
    · rw [new_eq, hl]
    · refine ⟨descriptorAt (cmds.length + 1) cmds.length (name, help, func), ?_, rfl, rfl, rfl⟩
      have := hnew.2.1 cmds.length
      simp only [Registry.deref]
      rw [if_neg (by omega)]
      simpa using this
    · have hc : (ShellCommandRegister.new Shell.registerCommand name help func
            (registerAll cmds Registry.empty)).2.calls
          = (registerAll cmds Registry.empty).calls ++ [(cmds.length + 1,
              { name := name, help := help, func := func, next := 0 })] := by
        rw [new_eq]
        simp only [registerCommand_calls, hl]
      rw [hc, List.map_append, List.count_append]
      have h0 : List.count (cmds.length + 1)
          ((registerAll cmds Registry.empty).calls.map Prod.fst) = 0 := by
        rw [List.count_eq_zero]
        intro hmem
        obtain ⟨x, hx, hx1⟩ := List.mem_map.mp hmem
        have := hold.2.2.2 x hx
        omega
      rw [h0]
      simp
    · rw [listFrom_of_lists _ _ hnew (by simp)]
      apply List.count_eq_one_of_mem (List.nodup_range' 1 _)
      simp [List.mem_range'_1]

/-! ## The argument view: properties -/

/-- The first piece of a split is the run up to the first separator; the
pieces after it are those of what follows that run. -/
theorem splitOnP_head (sep : Char → Bool) (l : List Char) :
    ∃ r, l.splitOnP sep = l.takeWhile (fun c => !sep c) :: r ∧
      r.filter (fun t => !t.isEmpty) = runsOf sep (l.dropWhile (fun c => !sep c)) := by
  induction l with
  | nil => exact ⟨[], by simp [List.splitOnP_nil], by simp [runsOf, List.splitOnP_nil]⟩
  | cons d l ih =>
    obtain ⟨r, hr, hf⟩ := ih
    by_cases hd : sep d = true
    · refine ⟨l.splitOnP sep, ?_, ?_⟩
      · simp [List.splitOnP_cons, hd]
      · simp [runsOf, List.splitOnP_cons, hd]
    · refine ⟨r, ?_, ?_⟩
      · simp [List.splitOnP_cons, hd, hr]
      · simp [hd, hf]

theorem runsOf_nil (sep : Char → Bool) : runsOf sep [] = [] := by
  simp [runsOf, List.splitOnP_nil]

theorem runsOf_cons_sep (sep : Char → Bool) (c : Char) (l : List Char) (h : sep c = true) :
    runsOf sep (c :: l) = runsOf sep l := by
  simp [runsOf, List.splitOnP_cons, h]

theorem runsOf_cons_tok (sep : Char → Bool) (c : Char) (l : List Char) (h : sep c = false) :
    runsOf sep (c :: l) =
      (c :: l.takeWhile (fun c => !sep c)) :: runsOf sep (l.dropWhile (fun c => !sep c)) := by
  obtain ⟨r, hr, hf⟩ := splitOnP_head sep l
  simp [runsOf, List.splitOnP_cons, h, hr]
  simpa [runsOf] using hf

theorem runsOf_dropWhile_sep (sep : Char → Bool) (l : List Char) :
    runsOf sep (l.dropWhile sep) = runsOf sep l := by
  induction l with
  | nil => rfl
  | cons c l ih =>
    by_cases hc : sep c = true
    · rw [List.dropWhile_cons_of_pos hc, ih, runsOf_cons_sep sep c l hc]
    · rw [List.dropWhile_cons_of_neg hc]

theorem dropWhile_head_not (sep : Char → Bool) (l : List Char) (c : Char) (t : List Char)
    (h : l.dropWhile sep = c :: t) : sep c = false := by
  induction l with
  | nil => simp at h
  | cons d l ih =>
    by_cases hd : sep d = true
    · rw [List.dropWhile_cons_of_pos hd] at h
      exact ih h
    · rw [List.dropWhile_cons_of_neg hd] at h
      have : d = c := by injection h
      subst this
      simpa using hd

/-- Splitting at a separator: the pieces of what precedes it, then the pieces
of what follows it. -/
theorem splitOnP_append_sep (sep : Char → Bool) (u v : List Char) (d : Char) (h : sep d = true) :
    (u ++ d :: v).splitOnP sep = u.splitOnP sep ++ v.splitOnP sep := by
  induction u with
  | nil => simp [List.splitOnP_cons, h, List.splitOnP_nil]
  | cons c u ih =>
    by_cases hc : sep c = true
    · simp [List.splitOnP_cons, hc, ih]
    · simp only [List.cons_append, List.splitOnP_cons, hc, ih]
      cases hs : u.splitOnP sep with
      | nil => exact absurd hs (List.splitOnP_ne_nil sep u)
      | cons x xs => simp

theorem runsOf_append_sep (sep : Char → Bool) (u v : List Char) (d : Char) (h : sep d = true) :
    runsOf sep (u ++ d :: v) = runsOf sep u ++ runsOf sep v := by
  simp [runsOf, splitOnP_append_sep sep u v d h]

theorem runsOf_seps_append (sep : Char → Bool) (w v : List Char)
    (hw : ∀ c ∈ w, sep c = true) : runsOf sep (w ++ v) = runsOf sep v := by
  induction w with
  | nil => rfl
  | cons c w ih =>
    rw [List.cons_append, runsOf_cons_sep sep c _ (hw c (List.mem_cons_self c w))]
    exact ih (fun x hx => hw x (List.mem_cons_of_mem c hx))

theorem runsOf_append_seps_append (sep : Char → Bool) (u w v : List Char)
    (hw : ∀ c ∈ w, sep c = true) (hne : w ≠ []) :
    runsOf sep (u ++ w ++ v) = runsOf sep u ++ runsOf sep v := by
  cases w with
  | nil => exact absurd rfl hne
  | cons d w =>
    rw [List.append_assoc, List.cons_append,
      runsOf_append_sep sep u _ d (hw d (List.mem_cons_self d w)),
      runsOf_seps_append sep w v (fun x hx => hw x (List.mem_cons_of_mem d hx))]

theorem runsOf_append_seps (sep : Char → Bool) (u w : List Char)
    (hw : ∀ c ∈ w, sep c = true) : runsOf sep (u ++ w) = runsOf sep u := by
  by_cases hne : w = []
  · subst hne; simp
  · have := runsOf_append_seps_append sep u w [] hw hne
    simpa [runsOf_nil] using this

theorem runsOf_mem_aux (sep : Char → Bool) (t : List Char) (n : Nat) :
    ∀ l : List Char, l.length ≤ n → t ∈ runsOf sep l →
      t ≠ [] ∧ ∀ c ∈ t, sep c = false := by
  induction n with
  | zero =>
    intro l hl h
    have : l = [] := List.length_eq_zero.mp (by omega)
    subst this
    simp [runsOf_nil] at h
  | succ n ih =>
    intro l hl h
    cases l with
    | nil => simp [runsOf_nil] at h
    | cons c l =>
      simp only [List.length_cons] at hl
      by_cases hc : sep c = true
      · rw [runsOf_cons_sep sep c l hc] at h
        exact ih l (by omega) h
      · have hc' : sep c = false := by simpa using hc
        rw [runsOf_cons_tok sep c l hc', List.mem_cons] at h
        rcases h with h | h
        · subst h
          refine ⟨by simp, ?_⟩
          intro x hx
          rw [List.mem_cons] at hx
          rcases hx with hx | hx
          · subst hx; exact hc'
          · have := List.mem_takeWhile_imp hx
            simpa using this
        · have hlen : (l.dropWhile (fun c => !sep c)).length ≤ l.length :=
            (List.dropWhile_sublist _).length_le
          exact ih _ (by omega) h

/-- Each maximal run is not empty and holds no separator. -/
theorem runsOf_mem (sep : Char → Bool) (l t : List Char) (h : t ∈ runsOf sep l) :
    t ≠ [] ∧ ∀ c ∈ t, sep c = false :=
  runsOf_mem_aux sep t l.length l (Nat.le_refl _) h

theorem drop_length_takeWhile (p : Char → Bool) (l : List Char) :
    l.drop (l.takeWhile p).length = l.dropWhile p := by
  have h : (l.takeWhile p ++ l.dropWhile p).drop (l.takeWhile p).length = l.dropWhile p :=
    List.drop_left _ _
  rwa [List.takeWhile_append_dropWhile] at h

theorem skipTerminators_drop (line : List Char) (size posn : Nat) :
    (line.take size).drop (skipTerminators line size posn)
      = ((line.take size).drop posn).dropWhile (fun c => c == NUL) := by
  rw [skipTerminators, ← List.drop_drop, drop_length_takeWhile]

theorem skipToken_drop (line : List Char) (size posn : Nat) :
    (line.take size).drop (skipToken line size posn)
      = ((line.take size).drop posn).dropWhile (fun c => !(c == NUL)) := by
  rw [skipToken, ← List.drop_drop, drop_length_takeWhile]

theorem nextToken_drop (line : List Char) (size posn : Nat) :
    (line.take size).drop (nextToken line size posn)
      = nextSuffix ((line.take size).drop posn) := by
  rw [nextToken, skipTerminators_drop, skipToken_drop, nextSuffix]

theorem nextToken_iterate_drop (line : List Char) (size : Nat) (k posn : Nat) :
    (line.take size).drop ((nextToken line size)^[k] posn)
      = nextSuffix^[k] ((line.take size).drop posn) := by
  induction k generalizing posn with
  | zero => rfl
  | succ k ih =>
    rw [Function.iterate_succ_apply, Function.iterate_succ_apply, ih, nextToken_drop]

/-- The `k`-th run of a terminated text is the string found by stepping `k`
times from the first token. -/
theorem runsOf_getElem? (k : Nat) : ∀ text : List Char,
    k < (runsOf (fun c => c == NUL) text).length →
    (runsOf (fun c => c == NUL) text)[k]? =
      some ((nextSuffix^[k] (text.dropWhile (fun c => c == NUL))).takeWhile
        (fun c => !(c == NUL))) := by
  induction k with
  | zero =>
    intro text hk
    rw [← runsOf_dropWhile_sep] at hk ⊢
    cases hd : text.dropWhile (fun c => c == NUL) with
    | nil => rw [hd, runsOf_nil] at hk; simp at hk
    | cons c t =>
      have hc := dropWhile_head_not _ text c t hd
      rw [runsOf_cons_tok _ c t hc]
      simp only [List.getElem?_cons_zero, Function.iterate_zero, id_eq]
      rw [List.takeWhile_cons_of_pos (by simpa using hc)]
  | succ k ih =>
    intro text hk
    rw [← runsOf_dropWhile_sep] at hk ⊢
    cases hd : text.dropWhile (fun c => c == NUL) with
    | nil => rw [hd, runsOf_nil] at hk; simp at hk
    | cons c t =>
      have hc := dropWhile_head_not _ text c t hd
      rw [hd, runsOf_cons_tok _ c t hc] at hk
      rw [runsOf_cons_tok _ c t hc]
      simp only [List.length_cons, Nat.add_lt_add_iff_right] at hk
      rw [List.getElem?_cons_succ, ih _ hk, Function.iterate_succ_apply]
      have : nextSuffix (c :: t)
          = (t.dropWhile (fun c => !(c == NUL))).dropWhile (fun c => c == NUL) := by
        rw [nextSuffix, List.dropWhile_cons_of_pos (by simpa using hc)]
      rw [this]

theorem terminateTokens_fst (b : List Char) (len : Nat) (t : Bool) :
    (terminateTokens b len t).1 = (b.take len).map terminated ++ b.drop len := by
  induction b generalizing len t with
  | nil => simp [terminateTokens]
  | cons c rest ih =>
    cases len with
    | zero => simp [terminateTokens]
    | succ len =>
      simp only [terminateTokens]
      split <;> simp [ih, terminated, *]

theorem terminateTokens_snd (b : List Char) (len : Nat) (t : Bool) :
    (terminateTokens b len t).2 =
      if t = true then
        (runsOf isWhitespace ((b.take len).dropWhile (fun c => !isWhitespace c))).length
      else (runsOf isWhitespace (b.take len)).length := by
  induction b generalizing len t with
  | nil => simp [terminateTokens, runsOf_nil]
  | cons c rest ih =>
    cases len with
    | zero => simp [terminateTokens, runsOf_nil]
    | succ len =>
      simp only [terminateTokens, List.take_succ_cons]
      by_cases hc : isWhitespace c = true
      · rw [if_pos hc]
        simp only [ih, Bool.false_eq_true, if_false]
        have hd : (c :: rest.take len).dropWhile (fun c => !isWhitespace c)
            = c :: rest.take len := by
          rw [List.dropWhile_cons_of_neg (by simp [hc])]
        rw [hd, runsOf_cons_sep _ c _ hc]
        simp
      · have hc' : isWhitespace c = false := by simpa using hc
        rw [if_neg hc]
        simp only [ih, if_true]
        have hd : (c :: rest.take len).dropWhile (fun c => !isWhitespace c)
            = (rest.take len).dropWhile (fun c => !isWhitespace c) := by
          rw [List.dropWhile_cons_of_pos (by simp [hc'])]
        rw [hd, runsOf_cons_tok _ c _ hc']
        cases t <;> simp

/-- On a line without terminators, splitting the terminated line at the
terminators gives the pieces of the line split at whitespace. -/
theorem splitOnP_terminated (l : List Char) (h : NUL ∉ l) :
    (l.map terminated).splitOnP (fun c => c == NUL) = l.splitOnP isWhitespace := by
  induction l with
  | nil => simp [List.splitOnP_nil]
  | cons c l ih =>
    have hc : c ≠ NUL := fun e => h (e ▸ List.mem_cons_self c l)
    have hl : NUL ∉ l := fun e => h (List.mem_cons_of_mem c e)
    simp only [List.map_cons, List.splitOnP_cons, ih hl]
    by_cases hw : isWhitespace c = true
    · simp [terminated, hw]
    · simp [terminated, hw, hc]

theorem runsOf_terminated (l : List Char) (h : NUL ∉ l) :
    runsOf (fun c => c == NUL) (l.map terminated) = runsOf isWhitespace l := by
  rw [runsOf, splitOnP_terminated l h, runsOf]

theorem take_terminateTokens (b : List Char) (len : Nat) (t : Bool) :
    (terminateTokens b len t).1.take len = (b.take len).map terminated := by
  rw [terminateTokens_fst]
  by_cases h : len ≤ b.length
  · exact List.take_left' (by simp [h])
  · have h1 : b.drop len = [] := List.drop_eq_nil_of_le (by omega)
    rw [h1, List.append_nil]
    exact List.take_of_length_le (by simp)

/-- The view the constructor builds looks at the terminated line. -/
theorem valid_new (b : List Char) (len : Nat) (h : NUL ∉ b.take len) :
    (ShellArguments.new b len).Valid ((b.take len).map terminated) := by
  have htake := take_terminateTokens b len false
  refine ⟨htake, ?_, Int.le_refl 0, ?_⟩
  · simp only [ShellArguments.new, terminateTokens_snd, Bool.false_eq_true, if_false]
    rw [runsOf_terminated _ h]
  · simp only [ShellArguments.new, Int.toNat_zero, Function.iterate_zero, id_eq]
    rw [← htake, skipTerminators_drop, List.drop_zero]

/-- An access leaves the view looking at the same text, and an access in
range returns the run of that index. -/
theorem valid_subscript (a : ShellArguments) (text : List Char) (hv : a.Valid text)
    (index : Int) :
    (a.subscript index).2.Valid text ∧
    (0 ≤ index → index < a.argc →
      (a.subscript index).1 = (runsOf (fun c => c == NUL) text)[index.toNat]?) := by
  obtain ⟨h1, h2, h3, h4⟩ := hv
  by_cases hr : index < 0 ∨ index ≥ a.argc
  · refine ⟨?_, ?_⟩
    · simp only [ShellArguments.subscript, if_pos hr]
      exact ⟨h1, h2, h3, h4⟩
    · intro h0 hlt
      rcases hr with hr | hr <;> omega
  · have h0 : 0 ≤ index := by omega
    have hlt : index < a.argc := by omega
    have hpos : text.drop
        (if index ≥ a.currentIndex then
          (nextToken a.line a.size)^[(index - a.currentIndex).toNat] a.currentPosn
        else (nextToken a.line a.size)^[index.toNat] (skipTerminators a.line a.size 0))
        = nextSuffix^[index.toNat] (text.dropWhile (fun c => c == NUL)) := by
      by_cases hge : index ≥ a.currentIndex
      · rw [if_pos hge, ← h1, nextToken_iterate_drop, h1, h4, ← Function.iterate_add_apply]
        have : (index - a.currentIndex).toNat + a.currentIndex.toNat = index.toNat := by omega
        rw [this]
      · rw [if_neg hge, ← h1, nextToken_iterate_drop, skipTerminators_drop, List.drop_zero]
    refine ⟨?_, ?_⟩
    · simp only [ShellArguments.subscript, if_neg hr]
      exact ⟨h1, h2, h0, hpos⟩
    · intro _ _
      have hk : index.toNat < (runsOf (fun c => c == NUL) text).length := by omega
      rw [runsOf_getElem? _ text hk, ← hpos]
      simp only [ShellArguments.subscript, if_neg hr, stringAt, h1]

theorem valid_visit (indices : List Int) (a : ShellArguments) (text : List Char)
    (hv : a.Valid text) : (a.visit indices).Valid text := by
  induction indices generalizing a with
  | nil => exact hv
  | cons i indices ih =>
    simp only [ShellArguments.visit, List.foldl_cons]
    exact ih _ (valid_subscript a text hv i).1

theorem visit_argc (indices : List Int) (a : ShellArguments) :
    (a.visit indices).argc = a.argc := by
  induction indices generalizing a with
  | nil => rfl
  | cons i indices ih =>
    simp only [ShellArguments.visit, List.foldl_cons]
    have := ih (a.subscript i).2
    simp only [ShellArguments.visit] at this
    rw [this]
    simp only [ShellArguments.subscript]
    split <;> rfl

/-- The view over a completed line, in a buffer that may go on after it:
its count and the result of each access, whatever was accessed before. -/
theorem new_spec (line beyond : List Char) (h : CompletedLine line) :
    (ShellArguments.new (line ++ beyond) line.length).count
      = ((maximalRuns line).length : Int) ∧
    ∀ (visited : List Int) (i : Nat), i < (maximalRuns line).length →
      (((ShellArguments.new (line ++ beyond) line.length).visit visited).subscript (i : Int)).1
        = (maximalRuns line)[i]? := by
  have htake : (line ++ beyond).take line.length = line := List.take_left _ _
  have hv := valid_new (line ++ beyond) line.length (by rw [htake]; exact h)
  rw [htake] at hv
  have hruns := runsOf_terminated line h
  have hcount : (ShellArguments.new (line ++ beyond) line.length).argc
      = ((maximalRuns line).length : Int) := by
    rw [hv.2.1, hruns, maximalRuns]
  refine ⟨hcount, ?_⟩
  intro visited i hi
  have hv2 := valid_visit visited _ _ hv
  have := (valid_subscript _ _ hv2 (i : Int)).2 (by omega)
    (by rw [visit_argc, hcount]; omega)
  rw [this, hruns, maximalRuns]
  simp

theorem tokens_new (line : List Char) (h : CompletedLine line) :
    (ShellArguments.new line line.length).tokens = (maximalRuns line).map some := by
  have hs := new_spec line [] h
  rw [List.append_nil] at hs
  apply List.ext_getElem?
  intro i
  simp only [ShellArguments.tokens, hs.1, Int.toNat_ofNat, List.getElem?_map]
  by_cases hi : i < (maximalRuns line).length
  · have := hs.2 [] i hi
    simp only [ShellArguments.visit, List.foldl_nil] at this
    rw [List.getElem?_range hi, List.getElem?_eq_getElem hi]
    simp only [Option.map_some', Int.ofNat_eq_coe]
    rw [this, List.getElem?_eq_getElem hi]
  · rw [List.getElem?_eq_none (by simp; omega), List.getElem?_eq_none (by omega)]
    rfl

theorem allWhitespace_completed (w : List Char) (h : AllWhitespace w) : CompletedLine w := by
  intro hm
  have := h NUL hm
  revert this
  decide

theorem completed_append (u v : List Char) (hu : CompletedLine u) (hv : CompletedLine v) :
    CompletedLine (u ++ v) := by
  intro hm
  rcases List.mem_append.mp hm with h | h
  · exact hu h
  · exact hv h

/-- C1. The view built over a completed line (a line of text, in a buffer that
may hold more after it): `count()` is the number of maximal runs of characters
that are not whitespace, and `operator[](i)`, for `i` from 0 below the count
and whatever was accessed before, returns the `i`-th run; no run is empty or
holds whitespace; whitespace before or after the line, and the amount of
whitespace at a place inside it, change neither the count nor any token. -/
theorem tokens_are_maximal_runs (line : List Char) (h : CompletedLine line) :
    (∀ beyond : List Char,
      (ShellArguments.new (line ++ beyond) line.length).count
        = ((maximalRuns line).length : Int) ∧
      ∀ (visited : List Int) (i : Nat) (hi : i < (maximalRuns line).length),
        (((ShellArguments.new (line ++ beyond) line.length).visit visited).subscript
            (i : Int)).1 = some ((maximalRuns line).get ⟨i, hi⟩)) ∧
    (∀ t ∈ maximalRuns line, t ≠ [] ∧ ∀ c ∈ t, isWhitespace c = false) ∧
    (∀ before after : List Char, AllWhitespace before → AllWhitespace after →
      (ShellArguments.new (before ++ line ++ after) (before ++ line ++ after).length).tokens
        = (ShellArguments.new line line.length).tokens) ∧
    (∀ rest gap gap2 : List Char, CompletedLine rest →
      AllWhitespace gap → gap ≠ [] → AllWhitespace gap2 → gap2 ≠ [] →
      (ShellArguments.new (line ++ gap ++ rest) (line ++ gap ++ rest).length).tokens
        = (ShellArguments.new (line ++ gap2 ++ rest) (line ++ gap2 ++ rest).length).tokens) := by
  refine ⟨?_, ?_, ?_, ?_⟩
  · intro beyond
    have hs := new_spec line beyond h
    refine ⟨hs.1, ?_⟩
    intro visited i hi
    rw [hs.2 visited i hi, List.getElem?_eq_getElem hi]
    rfl
  · intro t ht
    exact runsOf_mem isWhitespace line t ht
  · intro before after hb ha
    have hc : CompletedLine (before ++ line ++ after) :=
      completed_append _ _ (completed_append _ _ (allWhitespace_completed _ hb) h)
        (allWhitespace_completed _ ha)
    rw [tokens_new _ hc, tokens_new _ h, maximalRuns, maximalRuns,
      runsOf_append_seps _ _ _ ha, runsOf_seps_append _ _ _ hb]
  · intro rest gap gap2 hrest hg hgne hg2 hg2ne
    have hc : CompletedLine (line ++ gap ++ rest) :=
      completed_append _ _ (completed_append _ _ h (allWhitespace_completed _ hg)) hrest
    have hc2 : CompletedLine (line ++ gap2 ++ rest) :=
      completed_append _ _ (completed_append _ _ h (allWhitespace_completed _ hg2)) hrest
    rw [tokens_new _ hc, tokens_new _ hc2, maximalRuns, maximalRuns,
      runsOf_append_seps_append _ _ _ _ hg hgne, runsOf_append_seps_append _ _ _ _ hg2 hg2ne]

theorem tokens_are_maximal_runs_witness :
    CompletedLine "led   on".toList ∧
    (ShellArguments.new "led   on".toList 8).count = 2 ∧
    (ShellArguments.new (" ".toList ++ "led   on".toList ++ " ".toList) 10).tokens
      = [some "led".toList, some "on".toList] ∧
    (ShellArguments.new "led on".toList 6).tokens = [some "led".toList, some "on".toList] :=
  ⟨by decide,
   ((tokens_are_maximal_runs "led   on".toList (by decide)).1 []).1.trans (by decide),
   ((tokens_are_maximal_runs "led   on".toList (by decide)).2.2.1
     " ".toList " ".toList (by decide) (by decide)).trans (by decide),
   by decide⟩

/-! ## The history store: properties -/

/-- C6. The example handler `cmdLed`, which main.cpp registers through
`ShellCommand(led, ..., cmdLed)`, does not have the signature of
`ShellCommandFunc`: it takes three parameters, the descriptor pointer is
missing, where the type that a `ShellCommandRegister` stores takes four. -/
theorem cmdLed_signature_differs :
    cmdLed.signature ≠ ShellCommandFunc.signature ∧
    cmdLed.signature.params = [CType.shellRef, CType.int, CType.argumentsConstRef] ∧
    ShellCommandFunc.signature.params =
      [CType.shellRef, CType.commandRegisterPtr, CType.int, CType.argumentsConstRef] := by
  decide

end ArduinoShell
